import Mathlib

/-!
Shallow embedding of the `@automationcloud/fuzzy-search` package
(`src/main/match.ts` and the `fuzzySearch` module), together with proofs
of the specification's claims about it.

Modelling conventions:
* Strings are `List Char`.  The package's declared scope is ASCII
  (camelCase/snake_case tokenisation, `[a-z]`, `[A-Z]`, `[0-9]` classes),
  so `toLowerCase` is modelled on the ASCII range.
* JS numbers are modelled by `JSNum`: an exact rational for finite values
  plus `nan`, `inf`, `neginf`.  All numbers reaching the score formula are
  integers or small rationals; the degenerate divisions (0/0 → NaN,
  n/0 → Infinity for n > 0) are reachable and are modelled explicitly.
  Negative zero never arises with an observable sign here (the only
  subtraction `sum - n/l` returns +0 on equal finite operands, and JS
  compares `-0 === 0` as true anyway), so it is identified with `fin 0`.
* The token matcher's regex
  `/[a-z][a-z0-9]*(?=[A-Z]|\b|_)|[A-Z][a-z0-9]*/g` is stateful; inside
  `fuzzyMatchByTokens` its `lastIndex` only ever advances through `exec`
  calls, so the sequence of `exec` results is exactly the left-to-right
  token chain of the source computed from position 0.  The lookahead
  `(?=[A-Z]|\b|_)` always succeeds at the greedy end of a `[a-z][a-z0-9]*`
  run (the character after a maximal run is either uppercase, `_`, a
  non-word character — satisfying `\b` — or the end of the string), so a
  token is: a letter, followed by the maximal run of `[a-z0-9]`.
  `scanStarts` computes the chain of token start indices in one structural
  pass (the `inRun` flag tracks "current position lies inside the run of
  the previously emitted token"), and the matcher pops that chain one
  entry per mismatch, exactly as the JS code pops one `exec` per mismatch.
  Only token start indices matter: the end of a token is consumed solely
  as the regex's next `lastIndex`, which the sequential chain already
  accounts for.
-/

/-- JS `String.prototype.toLowerCase`, restricted to the ASCII range that is
in scope for this package. -/
def jsToLower (c : Char) : Char :=
  if 'A' ≤ c ∧ c ≤ 'Z' then Char.ofNat (c.toNat + 32) else c

/-- Characters matched by the regex class `\s` (ASCII part plus NBSP, BOM and
the Unicode line separators). -/
def isJsSpace (c : Char) : Bool :=
  c.toNat = 32 || c.toNat = 9 || c.toNat = 10 || c.toNat = 11 ||
  c.toNat = 12 || c.toNat = 13 || c.toNat = 160 || c.toNat = 0xfeff ||
  c.toNat = 0x2028 || c.toNat = 0x2029

/-- JS `query.toLowerCase().replace(/\s+/g, '')` as a character list. -/
def lowerStrip (q : List Char) : List Char :=
  (q.map jsToLower).filter (fun c => !isJsSpace c)

/-- Characters matching `[a-z]`. -/
def isLowerAZ (c : Char) : Bool := 'a' ≤ c && c ≤ 'z'

/-- Characters matching `[A-Z]`. -/
def isUpperAZ (c : Char) : Bool := 'A' ≤ c && c ≤ 'Z'

/-- Characters matching `[a-zA-Z]`: the possible first character of either
regex alternative. -/
def isAsciiLetter (c : Char) : Bool := isLowerAZ c || isUpperAZ c

/-- Characters matching `[a-z0-9]`: the run continuing a token. -/
def isRunChar (c : Char) : Bool := isLowerAZ c || ('0' ≤ c && c ≤ '9')

/-- Length of the maximal `[a-z0-9]` prefix of a character list. -/
def runLen : List Char → ℕ
  | [] => 0
  | c :: cs => if isRunChar c then runLen cs + 1 else 0

/-- Index of the first character at or after position `fromIdx` satisfying
`p`, if any.  `findIdxFromP (fun x => x = c) s i` is JS `s.indexOf(c, i)`
(with `-1` as `none`). -/
def findIdxFromP (p : Char → Bool) : List Char → ℕ → Option ℕ
  | [], _ => none
  | c :: cs, 0 =>
      if p c then some 0 else (findIdxFromP p cs 0).map (· + 1)
  | _ :: cs, fromIdx + 1 => (findIdxFromP p cs fromIdx).map (· + 1)

/-- The chain of token start indices produced by repeatedly calling
`regex.exec(source)` starting from `lastIndex = 0`.  `i` is the absolute
index of the head of the list; `inRun` records whether that position is
still inside the `[a-z0-9]` run of the previously emitted token. -/
def scanStarts : List Char → ℕ → Bool → List ℕ
  | [], _, _ => []
  | c :: cs, i, inRun =>
    if inRun && isRunChar c then scanStarts cs (i + 1) true
    else if isAsciiLetter c then i :: scanStarts cs (i + 1) true
    else scanStarts cs (i + 1) false

/-- JS number values reachable in this package: exact finite rationals,
`NaN`, and the two infinities. -/
inductive JSNum where
  | fin (q : ℚ)
  | nan
  | inf
  | neginf
deriving DecidableEq, Repr

/-- JS division on `JSNum` (no negative zero: see the module docstring). -/
def jsDiv : JSNum → JSNum → JSNum
  | .nan, _ => .nan
  | _, .nan => .nan
  | .fin a, .fin b =>
      if b = 0 then (if a = 0 then .nan else if 0 < a then .inf else .neginf)
      else .fin (a / b)
  | .fin _, .inf => .fin 0
  | .fin _, .neginf => .fin 0
  | .inf, .fin b => if b < 0 then .neginf else .inf
  | .neginf, .fin b => if b < 0 then .inf else .neginf
  | .inf, .inf => .nan
  | .inf, .neginf => .nan
  | .neginf, .inf => .nan
  | .neginf, .neginf => .nan

/-- JS subtraction on `JSNum`. -/
def jsSub : JSNum → JSNum → JSNum
  | .nan, _ => .nan
  | _, .nan => .nan
  | .fin a, .fin b => .fin (a - b)
  | .fin _, .inf => .neginf
  | .fin _, .neginf => .inf
  | .inf, .fin _ => .inf
  | .neginf, .fin _ => .neginf
  | .inf, .inf => .nan
  | .inf, .neginf => .inf
  | .neginf, .inf => .neginf
  | .neginf, .neginf => .nan

/-- JS multiplication of a `JSNum` by a finite number (the
`tokenScoreBias` option). -/
def jsMulQ (x : JSNum) (b : ℚ) : JSNum :=
  match x with
  | .nan => .nan
  | .fin a => .fin (a * b)
  | .inf => if 0 < b then .inf else if b < 0 then .neginf else .nan
  | .neginf => if 0 < b then .neginf else if b < 0 then .inf else .nan

/-- JS comparison `x > 0` (false on `NaN`). -/
def jsGtZero : JSNum → Bool
  | .fin a => decide (0 < a)
  | .nan => false
  | .inf => true
  | .neginf => false

/-- JS strict equality `===` on numbers (`NaN === NaN` is false). -/
def jsEqNum : JSNum → JSNum → Bool
  | .fin a, .fin b => decide (a = b)
  | .inf, .inf => true
  | .neginf, .neginf => true
  | _, _ => false

/-- JS comparison `x > y` on numbers (false whenever `NaN` is involved). -/
def jsGtNum : JSNum → JSNum → Bool
  | .fin a, .fin b => decide (b < a)
  | .fin _, .neginf => true
  | .inf, .fin _ => true
  | .inf, .neginf => true
  | _, _ => false

/-- JS string comparison `a > b`: lexicographic on code units. -/
def jsStrGt : List Char → List Char → Bool
  | [], _ => false
  | _ :: _, [] => true
  | a :: as, b :: bs => if a = b then jsStrGt as bs else decide (b.toNat < a.toNat)

/-- Result record of `fuzzyMatch` and both matchers. -/
structure FuzzyMatchResult where
  score : JSNum
  positions : List ℕ
deriving DecidableEq, Repr

/-- Embedding of `fuzzyMatchScore`: `n / (sum - (n / l))` in JS number
semantics, with `sum` computed by `matches.reduce((sum, m) => sum + m, 0)`. -/
def fuzzyMatchScore (source : List Char) (positions : List ℕ) : JSNum :=
  let l : ℚ := source.length
  let n : ℚ := positions.length
  let sum : ℚ := positions.foldl (fun (s : ℚ) (m : ℕ) => s + (m : ℚ)) 0
  jsDiv (.fin n) (jsSub (.fin sum) (jsDiv (.fin n) (.fin l)))

/-- Outcome of consuming queue letters contiguously from the cursor:
the queue was exhausted (`done`), the cursor ran past the end of the
source with letters left (`dead`), or a letter failed to match at a
valid cursor so the loop must jump to the next token (`jump`). -/
inductive MunchRes where
  | done (acc : List ℕ)
  | dead
  | jump (queue : List Char) (acc : List ℕ)
deriving DecidableEq, Repr

/-- The contiguous-matching phase of the `while` loop of
`fuzzyMatchByTokens`: compare the front of the queue with
`source.charAt(cursor).toLowerCase()`, recording the cursor and advancing
on success, until the queue empties, the cursor leaves the source, or a
comparison fails. -/
def tokenMunch (source : List Char) : List Char → ℕ → List ℕ → MunchRes
  | [], _, acc => .done acc
  | q :: qs, cursor, acc =>
    if h : cursor < source.length then
      if q = jsToLower (source.get ⟨cursor, h⟩) then
        tokenMunch source qs (cursor + 1) (acc ++ [cursor])
      else .jump (q :: qs) acc
    else .dead

/-- The full `while` loop of `fuzzyMatchByTokens`: on each mismatch the
code executes the stateful regex once, i.e. pops the next entry of the
token chain `ts` and moves the cursor there; when the chain is exhausted
(`regex.exec` returns `null`) the cursor is set to `source.length` and
the next iteration reports no match. -/
def tokenGo (source : List Char) (ts : List ℕ) (queue : List Char)
    (cursor : ℕ) (acc : List ℕ) : Option (List ℕ) :=
  match tokenMunch source queue cursor acc with
  | .done a => some a
  | .dead => none
  | .jump queue' acc' =>
    match ts with
    | [] => none
    | i :: rest => tokenGo source rest queue' i acc'

/-- Embedding of `fuzzyMatchByTokens`. -/
def fuzzyMatchByTokens (query source : List Char) : FuzzyMatchResult :=
  match tokenGo source (scanStarts source 0 false) (lowerStrip query) 0 [] with
  | some ms => ⟨fuzzyMatchScore source ms, ms⟩
  | none => ⟨.fin 0, []⟩

/-- The `for` loop of `fuzzyMatchByWildcard` over the stripped lower-cased
query, against the lower-cased source. -/
def wildcardLoop (sLower : List Char) : List Char → ℕ → Option (List ℕ)
  | [], _ => some []
  | c :: cs, fromIdx =>
    match findIdxFromP (fun x => x = jsToLower c) sLower fromIdx with
    | none => none
    | some idx => (wildcardLoop sLower cs (idx + 1)).map (fun r => idx :: r)

/-- Embedding of `fuzzyMatchByWildcard`. -/
def fuzzyMatchByWildcard (query source : List Char) : FuzzyMatchResult :=
  match wildcardLoop (source.map jsToLower) (lowerStrip query) 0 with
  | some ms => ⟨fuzzyMatchScore source ms, ms⟩
  | none => ⟨.fin 0, []⟩

/-- Embedding of `fuzzyMatch`; `tokenScoreBias` (default 10 at call sites)
is passed explicitly. -/
def fuzzyMatch (query source : List Char) (tokenScoreBias : ℚ) : FuzzyMatchResult :=
  let tokenMatch := fuzzyMatchByTokens query source
  if jsGtZero tokenMatch.score then
    ⟨jsMulQ tokenMatch.score tokenScoreBias, tokenMatch.positions⟩
  else fuzzyMatchByWildcard query source

/-- Result record of `fuzzySearch`. -/
structure FuzzySearchResult where
  score : JSNum
  positions : List ℕ
  source : List Char
  sourceIndex : ℕ
deriving DecidableEq, Repr

/-- The comparator passed to `results.sort`, read as "a sorts no later
than b": it returns `-1` exactly when the scores are strictly equal and
`a.source > b.source` is false, or the scores differ and `a.score >
b.score` (it never returns `0`). -/
def searchLe (a b : FuzzySearchResult) : Bool :=
  if jsEqNum a.score b.score then !jsStrGt a.source b.source
  else jsGtNum a.score b.score

/-- Insert into a sorted list: the comparison-sort model of
`Array.prototype.sort`. -/
def insertCmp (le : FuzzySearchResult → FuzzySearchResult → Bool)
    (a : FuzzySearchResult) : List FuzzySearchResult → List FuzzySearchResult
  | [] => [a]
  | b :: bs => if le a b then a :: b :: bs else b :: insertCmp le a bs

/-- Comparison sort with the given comparator, modelling
`Array.prototype.sort` (any comparison sort yields the same key order for
this comparator; ECMAScript guarantees a comparator-sorted result). -/
def sortCmp (le : FuzzySearchResult → FuzzySearchResult → Bool) :
    List FuzzySearchResult → List FuzzySearchResult
  | [] => []
  | a :: as => insertCmp le a (sortCmp le as)

/-- The `for` loop of `fuzzySearch`: run `fuzzyMatch` over the indexed
candidates and keep the results with `score > 0`. -/
def searchResults (query : List Char) (sources : List (List Char))
    (tokenScoreBias : ℚ) : List FuzzySearchResult :=
  sources.enum.filterMap (fun p =>
    let m := fuzzyMatch query p.2 tokenScoreBias
    if jsGtZero m.score then some ⟨m.score, m.positions, p.2, p.1⟩ else none)

/-- Embedding of `fuzzySearch`: the filtered results, sorted with the
comparator above. -/
def fuzzySearch (query : List Char) (sources : List (List Char))
    (tokenScoreBias : ℚ) : List FuzzySearchResult :=
  sortCmp searchLe (searchResults query sources tokenScoreBias)

/-! ### Character-level lemmas -/

theorem charLe_iff (a b : Char) : a ≤ b ↔ a.toNat ≤ b.toNat := by
  rw [Char.le_def, UInt32.le_def, BitVec.le_def]; rfl

theorem charLt_iff (a b : Char) : a < b ↔ a.toNat < b.toNat := by
  rw [Char.lt_def, UInt32.lt_def, BitVec.lt_def]; rfl

theorem charToNat_inj {a b : Char} (h : a.toNat = b.toNat) : a = b :=
  Char.ext (UInt32.ext h)

theorem charToNat_ofNat_small (n : ℕ) (h : n < 55296) : (Char.ofNat n).toNat = n := by
  unfold Char.ofNat
  rw [dif_pos (Or.inl h)]
  simp [Char.ofNatAux, Char.toNat, UInt32.toNat, UInt32.ofNatCore]

theorem charToNat_lt (c : Char) : c.toNat < 1114112 := by
  rcases c.valid with h | h
  · exact Nat.lt_trans h (by decide)
  · exact h.2

/-- Lower-casing an upper-case ASCII letter lands in `a`-`z`. -/
theorem jsToLower_of_upper {c : Char} (h : 'A' ≤ c ∧ c ≤ 'Z') :
    (jsToLower c).toNat = c.toNat + 32 ∧ 97 ≤ (jsToLower c).toNat ∧ (jsToLower c).toNat ≤ 122 := by
  have h1 : 65 ≤ c.toNat := (charLe_iff 'A' c).mp h.1
  have h2 : c.toNat ≤ 90 := (charLe_iff c 'Z').mp h.2
  have hv : c.toNat + 32 < 55296 := by omega
  unfold jsToLower
  rw [if_pos h]
  rw [charToNat_ofNat_small _ hv]
  omega

/-- JS `toLowerCase` (ASCII model) is idempotent. -/
theorem jsToLower_idem (c : Char) : jsToLower (jsToLower c) = jsToLower c := by
  by_cases h : 'A' ≤ c ∧ c ≤ 'Z'
  · obtain ⟨_, h97, _⟩ := jsToLower_of_upper h
    unfold jsToLower
    rw [if_neg]
    intro hcon
    have := (charLe_iff (jsToLower c) 'Z').mp hcon.2
    simp only [show ('Z').toNat = 90 from rfl] at this
    omega
  · have hc : jsToLower c = c := by unfold jsToLower; rw [if_neg h]
    rw [hc, hc]

/-- Every character of a stripped lower-cased query is fixed by `jsToLower`. -/
theorem lowerStrip_fixed {q : List Char} {c : Char} (h : c ∈ lowerStrip q) :
    jsToLower c = c := by
  unfold lowerStrip at h
  have := List.mem_filter.mp h
  obtain ⟨x, _, rfl⟩ := List.mem_map.mp this.1
  exact jsToLower_idem x

/-! ### Lemmas about `findIdxFromP` (JS `indexOf`) -/

theorem findIdxFromP_some {p : Char → Bool} :
    ∀ {s : List Char} {k i : ℕ}, findIdxFromP p s k = some i →
      k ≤ i ∧ ∃ c, s[i]? = some c ∧ p c = true := by
  intro s
  induction s with
  | nil => intro k i h; simp [findIdxFromP] at h
  | cons c cs ih =>
    intro k i h
    match k with
    | 0 =>
      rw [findIdxFromP] at h
      split at h
      · cases h; exact ⟨Nat.le_refl _, c, by simp, by assumption⟩
      · obtain ⟨j, hj, rfl⟩ := Option.map_eq_some'.mp h
        obtain ⟨-, d, hd, hp⟩ := ih hj
        exact ⟨Nat.zero_le _, d, by simpa using hd, hp⟩
    | k + 1 =>
      rw [findIdxFromP] at h
      obtain ⟨j, hj, rfl⟩ := Option.map_eq_some'.mp h
      obtain ⟨hk, d, hd, hp⟩ := ih hj
      exact ⟨by omega, d, by simpa using hd, hp⟩

theorem findIdxFromP_some_min {p : Char → Bool} :
    ∀ {s : List Char} {k i : ℕ}, findIdxFromP p s k = some i →
      ∀ j, k ≤ j → j < i → ∀ c, s[j]? = some c → p c = false := by
  intro s
  induction s with
  | nil => intro k i h; simp [findIdxFromP] at h
  | cons c cs ih =>
    intro k i h j hkj hji d hd
    match k with
    | 0 =>
      rw [findIdxFromP] at h
      split at h
      · cases h; omega
      · obtain ⟨j', hj', rfl⟩ := Option.map_eq_some'.mp h
        match j with
        | 0 =>
          simp at hd
          cases hd
          simp only [Bool.not_eq_true] at *
          assumption
        | j + 1 =>
          exact ih hj' j (Nat.zero_le _) (by omega) d (by simpa using hd)
    | k + 1 =>
      rw [findIdxFromP] at h
      obtain ⟨j', hj', rfl⟩ := Option.map_eq_some'.mp h
      match j with
      | 0 => omega
      | j + 1 =>
        exact ih hj' j (by omega) (by omega) d (by simpa using hd)

theorem findIdxFromP_none {p : Char → Bool} :
    ∀ {s : List Char} {k : ℕ}, findIdxFromP p s k = none →
      ∀ j, k ≤ j → ∀ c, s[j]? = some c → p c = false := by
  intro s
  induction s with
  | nil => intro k _ j _ c hc; simp at hc
  | cons c cs ih =>
    intro k h j hkj d hd
    match k with
    | 0 =>
      rw [findIdxFromP] at h
      split at h
      · cases h
      · rw [Option.map_eq_none'] at h
        match j with
        | 0 =>
          simp at hd
          cases hd
          simp only [Bool.not_eq_true] at *
          assumption
        | j + 1 =>
          exact ih h j (Nat.zero_le _) d (by simpa using hd)
    | k + 1 =>
      rw [findIdxFromP] at h
      rw [Option.map_eq_none'] at h
      match j with
      | 0 => omega
      | j + 1 =>
        exact ih h j (by omega) d (by simpa using hd)

/-! ### The specification's description of the wildcard positions -/

/-- Modelled from the spec: "the returned positions are the leftmost-greedy
such subsequence (each position is the smallest index at or after the
previous position plus one holding the required character)".
`GreedyPick s k qq ms` says `ms` are the spec's leftmost-greedy positions
for the query characters `qq` in `s`, searching from index `k`. -/
inductive GreedyPick (s : List Char) : ℕ → List Char → List ℕ → Prop
  | nil (k : ℕ) : GreedyPick s k [] []
  | cons (k : ℕ) (c : Char) (cs : List Char) (i : ℕ) (ms : List ℕ) :
      k ≤ i → s[i]? = some c →
      (∀ j, k ≤ j → j < i → s[j]? ≠ some c) →
      GreedyPick s (i + 1) cs ms →
      GreedyPick s k (c :: cs) (i :: ms)

theorem wildcardLoop_some_greedy {s : List Char} :
    ∀ {qq : List Char} {k : ℕ} {ms : List ℕ},
      (∀ x ∈ qq, jsToLower x = x) →
      wildcardLoop s qq k = some ms → GreedyPick s k qq ms := by
  intro qq
  induction qq with
  | nil => intro k ms _ h; cases h; exact GreedyPick.nil k
  | cons c cs ih =>
    intro k ms hfix h
    rw [wildcardLoop] at h
    have hc : jsToLower c = c := hfix c (List.mem_cons_self c cs)
    rcases hfind : findIdxFromP (fun x => x = jsToLower c) s k with - | i
    · rw [hfind] at h; cases h
    · rw [hfind] at h
      obtain ⟨r, hr, rfl⟩ := Option.map_eq_some'.mp h
      obtain ⟨hki, d, hd, hp⟩ := findIdxFromP_some hfind
      have hdc : d = c := by
        have := of_decide_eq_true hp
        rwa [hc] at this
      subst hdc
      refine GreedyPick.cons k d cs i r hki hd ?_ (ih (fun x hx => hfix x (List.mem_cons_of_mem _ hx)) hr)
      intro j hkj hji hcon
      have := findIdxFromP_some_min hfind j hkj hji d hcon
      rw [hc] at this
      simp at this

theorem greedyPick_map {s : List Char} :
    ∀ {qq : List Char} {k : ℕ} {ms : List ℕ}, GreedyPick s k qq ms →
      ms.map (fun p => s.getD p ' ') = qq ∧ ∀ m ∈ ms, k ≤ m ∧ m < s.length := by
  intro qq k ms h
  induction h with
  | nil => simp
  | cons k c cs i ms hki hi hmin htail ih =>
    constructor
    · simp only [List.map_cons, ih.1]
      congr 1
      rw [List.getD_eq_getElem?_getD, hi]
      rfl
    · intro m hm
      rcases List.mem_cons.mp hm with rfl | hm'
      · exact ⟨hki, (List.getElem?_eq_some_iff.mp hi).1⟩
      · have := ih.2 m hm'
        exact ⟨by omega, this.2⟩

theorem greedyPick_chain {s : List Char} {qq : List Char} {k : ℕ} {ms : List ℕ}
    (h : GreedyPick s k qq ms) : List.Chain' (fun a b => a < b) ms := by
  induction h with
  | nil => simp
  | cons k c cs i ms hki hi hmin htail ih =>
    rcases ms with - | ⟨m, ms'⟩
    · simp
    · refine List.Chain'.cons ?_ ih
      have := (greedyPick_map htail).2 m (List.mem_cons_self m ms')
      omega

theorem greedyPick_length {s : List Char} {qq : List Char} {k : ℕ} {ms : List ℕ}
    (h : GreedyPick s k qq ms) : ms.length = qq.length := by
  have := (greedyPick_map h).1
  calc ms.length = (ms.map (fun p => s.getD p ' ')).length := by simp
  _ = qq.length := by rw [this]

/-! ### Greedy matching finds a subsequence exactly when one exists -/

theorem drop_decomp {s : List Char} {k i : ℕ} {c : Char} (hki : k ≤ i)
    (hi : s[i]? = some c) :
    s.drop k = (s.drop k).take (i - k) ++ c :: s.drop (i + 1) := by
  obtain ⟨hil, hc⟩ := List.getElem?_eq_some_iff.mp hi
  conv_lhs => rw [← List.take_append_drop (i - k) (s.drop k)]
  congr 1
  rw [List.drop_drop]
  have hik : k + (i - k) = i := by omega
  rw [hik, List.drop_eq_getElem_cons hil, hc]

theorem take_drop_mem {s : List Char} {k i : ℕ} {x : Char}
    (hx : x ∈ (s.drop k).take (i - k)) :
    ∃ j, k ≤ j ∧ j < i ∧ s[j]? = some x := by
  obtain ⟨r, hr, hget⟩ := List.mem_iff_getElem.mp hx
  have hrik : r < i - k := by
    have := List.length_take (i - k) (s.drop k)
    omega
  have hq : ((s.drop k).take (i - k))[r]? = some x := by
    rw [List.getElem?_eq_getElem hr, hget]
  rw [List.getElem?_take, if_pos hrik, List.getElem?_drop] at hq
  exact ⟨k + r, by omega, by omega, hq⟩

theorem cons_sublist_strip {c : Char} {cs rest : List Char} :
    ∀ {mid : List Char}, (∀ x ∈ mid, x ≠ c) →
      (c :: cs).Sublist (mid ++ c :: rest) → cs.Sublist rest := by
  intro mid
  induction mid with
  | nil =>
    intro _ h
    simpa using h
  | cons m mid ih =>
    intro hne h
    cases h with
    | cons _ h' => exact ih (fun x hx => hne x (List.mem_cons_of_mem _ hx)) h'
    | cons₂ _ h' => exact absurd rfl (hne c (List.mem_cons_self _ _))

theorem greedyPick_sublist {s : List Char} {qq : List Char} {k : ℕ} {ms : List ℕ}
    (h : GreedyPick s k qq ms) : qq.Sublist (s.drop k) := by
  induction h with
  | nil => simp
  | cons k c cs i ms hki hi hmin htail ih =>
    rw [drop_decomp hki hi]
    exact (List.Sublist.cons₂ c ih).trans (List.sublist_append_right _ _)

theorem wildcardLoop_none_not_sublist {s : List Char} :
    ∀ {qq : List Char} {k : ℕ},
      (∀ x ∈ qq, jsToLower x = x) →
      wildcardLoop s qq k = none → ¬ qq.Sublist (s.drop k) := by
  intro qq
  induction qq with
  | nil => intro k _ h; rw [wildcardLoop] at h; cases h
  | cons c cs ih =>
    intro k hfix h hsub
    rw [wildcardLoop] at h
    have hc : jsToLower c = c := hfix c (List.mem_cons_self _ _)
    rcases hfind : findIdxFromP (fun x => x = jsToLower c) s k with - | i
    · rw [hfind] at h
      have hcmem : c ∈ s.drop k := hsub.subset (List.mem_cons_self _ _)
      obtain ⟨r, hr, hx⟩ := List.mem_iff_getElem.mp hcmem
      have hsr : s[k + r]? = some c := by
        have hkr : k + r < s.length := by
          have := List.length_drop k s
          omega
        rw [← List.getElem?_drop, List.getElem?_eq_getElem hr, hx]
      have := findIdxFromP_none hfind (k + r) (by omega) c hsr
      rw [hc] at this
      simp at this
    · rw [hfind] at h
      rw [Option.map_eq_none'] at h
      obtain ⟨hki, d, hd, hp⟩ := findIdxFromP_some hfind
      have hdc : d = c := by
        have := of_decide_eq_true hp
        rwa [hc] at this
      subst hdc
      rw [drop_decomp hki hd] at hsub
      have hmid : ∀ x ∈ (s.drop k).take (i - k), x ≠ d := by
        intro x hxm hxe
        obtain ⟨j, hkj, hji, hsj⟩ := take_drop_mem hxm
        have := findIdxFromP_some_min hfind j hkj hji x hsj
        rw [hc, hxe] at this
        simp at this
      exact ih (fun x hx => hfix x (List.mem_cons_of_mem _ hx)) h
        (cons_sublist_strip hmid hsub)

theorem wildcardLoop_isSome_iff_sublist {s : List Char} {qq : List Char} {k : ℕ}
    (hfix : ∀ x ∈ qq, jsToLower x = x) :
    (wildcardLoop s qq k).isSome = true ↔ qq.Sublist (s.drop k) := by
  constructor
  · intro h
    obtain ⟨ms, hms⟩ := Option.isSome_iff_exists.mp h
    exact greedyPick_sublist (wildcardLoop_some_greedy hfix hms)
  · intro h
    rcases hloop : wildcardLoop s qq k with - | ms
    · exact absurd h (wildcardLoop_none_not_sublist hfix hloop)
    · simp

/-! ### Token matcher: positions spell the stripped query -/

theorem tokenMunch_done {s : List Char} :
    ∀ {qq : List Char} {cur : ℕ} {acc a : List ℕ},
      tokenMunch s qq cur acc = .done a →
      a.map (fun p => jsToLower (s.getD p ' ')) =
        acc.map (fun p => jsToLower (s.getD p ' ')) ++ qq ∧
      ∀ x ∈ a, x ∈ acc ∨ x < s.length := by
  intro qq
  induction qq with
  | nil =>
    intro cur acc a h
    rw [tokenMunch] at h
    cases h
    exact ⟨by simp, fun x hx => Or.inl hx⟩
  | cons q qs ih =>
    intro cur acc a h
    rw [tokenMunch] at h
    split at h
    · split at h
      · rename_i hcur hq
        obtain ⟨hmap, hval⟩ := ih h
        constructor
        · rw [hmap, List.map_append]
          have hWord : jsToLower (s[cur]?.getD ' ') = q := by
            rw [List.getElem?_eq_getElem hcur, Option.getD_some, hq]
            rfl
          simp [hWord]
        · intro x hx
          rcases hval x hx with hin | hlt
          · rcases List.mem_append.mp hin with h1 | h2
            · exact Or.inl h1
            · simp at h2
              subst h2
              exact Or.inr hcur
          · exact Or.inr hlt
      · cases h
    · cases h

theorem tokenMunch_jump {s : List Char} :
    ∀ {qq : List Char} {cur : ℕ} {acc : List ℕ} {qq' : List Char} {acc' : List ℕ},
      tokenMunch s qq cur acc = .jump qq' acc' →
      (∃ pre, qq = pre ++ qq' ∧
        acc'.map (fun p => jsToLower (s.getD p ' ')) =
          acc.map (fun p => jsToLower (s.getD p ' ')) ++ pre) ∧
      ∀ x ∈ acc', x ∈ acc ∨ x < s.length := by
  intro qq
  induction qq with
  | nil =>
    intro cur acc qq' acc' h
    rw [tokenMunch] at h
    cases h
  | cons q qs ih =>
    intro cur acc qq' acc' h
    rw [tokenMunch] at h
    split at h
    · split at h
      · rename_i hcur hq
        obtain ⟨⟨pre, hpre, hmap⟩, hval⟩ := ih h
        constructor
        · refine ⟨q :: pre, by simp [hpre], ?_⟩
          rw [hmap, List.map_append]
          have hWord : jsToLower (s[cur]?.getD ' ') = q := by
            rw [List.getElem?_eq_getElem hcur, Option.getD_some, hq]
            rfl
          simp [hWord]
        · intro x hx
          rcases hval x hx with hin | hlt
          · rcases List.mem_append.mp hin with h1 | h2
            · exact Or.inl h1
            · simp at h2
              subst h2
              exact Or.inr hcur
          · exact Or.inr hlt
      · cases h
        exact ⟨⟨[], rfl, by simp⟩, fun x hx => Or.inl hx⟩
    · cases h

theorem tokenGo_some {s : List Char} :
    ∀ {ts : List ℕ} {qq : List Char} {cur : ℕ} {acc a : List ℕ},
      tokenGo s ts qq cur acc = some a →
      a.map (fun p => jsToLower (s.getD p ' ')) =
        acc.map (fun p => jsToLower (s.getD p ' ')) ++ qq ∧
      ∀ x ∈ a, x ∈ acc ∨ x < s.length := by
  intro ts
  induction ts with
  | nil =>
    intro qq cur acc a h
    rw [tokenGo] at h
    rcases hm : tokenMunch s qq cur acc with a' | - | ⟨qq', acc'⟩ <;> rw [hm] at h
    · cases h
      exact tokenMunch_done hm
    · cases h
    · cases h
  | cons i rest ih =>
    intro qq cur acc a h
    rw [tokenGo] at h
    rcases hm : tokenMunch s qq cur acc with a' | - | ⟨qq', acc'⟩ <;> rw [hm] at h
    · cases h
      exact tokenMunch_done hm
    · cases h
    · obtain ⟨hmap', hval'⟩ := ih h
      obtain ⟨⟨pre, hpre, hmap⟩, hval⟩ := tokenMunch_jump hm
      constructor
      · rw [hmap', hmap, hpre, List.append_assoc]
      · intro x hx
        rcases hval' x hx with hin | hlt
        · exact hval x hin
        · exact Or.inr hlt

theorem fuzzyMatchByTokens_positions {q s : List Char} {ms : List ℕ}
    (h : tokenGo s (scanStarts s 0 false) (lowerStrip q) 0 [] = some ms) :
    ms.map (fun p => jsToLower (s.getD p ' ')) = lowerStrip q ∧
    ∀ x ∈ ms, x < s.length := by
  obtain ⟨hmap, hval⟩ := tokenGo_some h
  refine ⟨by simpa using hmap, fun x hx => ?_⟩
  rcases hval x hx with hin | hlt
  · simp at hin
  · exact hlt

/-! ### The JS comparator is a total preorder on positive-score results -/

theorem jsStrGt_asymm : ∀ {a b : List Char},
    jsStrGt a b = true → jsStrGt b a = false := by
  intro a
  induction a with
  | nil => intro b h; rw [jsStrGt] at h; cases h
  | cons x xs ih =>
    intro b h
    match b with
    | [] => rw [jsStrGt]
    | y :: ys =>
      rw [jsStrGt] at h ⊢
      by_cases hxy : x = y
      · subst hxy
        rw [if_pos rfl] at h ⊢
        exact ih h
      · rw [if_neg hxy] at h
        rw [if_neg (Ne.symm hxy)]
        have := of_decide_eq_true h
        simp only [decide_eq_false_iff_not]
        omega

theorem jsStrGt_trans : ∀ {a b c : List Char},
    jsStrGt a b = true → jsStrGt b c = true → jsStrGt a c = true := by
  intro a
  induction a with
  | nil => intro b c h _; rw [jsStrGt] at h; cases h
  | cons x xs ih =>
    intro b c h1 h2
    match b, c with
    | [], c => rw [jsStrGt] at h2; cases h2
    | y :: ys, [] => rw [jsStrGt]
    | y :: ys, z :: zs =>
      rw [jsStrGt] at h1 h2 ⊢
      by_cases hxy : x = y <;> by_cases hyz : y = z
      · subst hxy; subst hyz
        rw [if_pos rfl] at h1 h2 ⊢
        exact ih h1 h2
      · subst hxy
        rw [if_neg hyz] at h2
        rw [if_neg hyz]
        exact h2
      · subst hyz
        rw [if_neg hxy] at h1
        rw [if_neg hxy]
        exact h1
      · rw [if_neg hxy] at h1
        rw [if_neg hyz] at h2
        have hy := of_decide_eq_true h1
        have hz := of_decide_eq_true h2
        have hxz : ¬ x = z := by
          intro he
          subst he
          omega
        rw [if_neg hxz]
        simp only [decide_eq_true_eq]
        omega

theorem jsStrGt_eq_of_not : ∀ {a b : List Char},
    jsStrGt a b = false → jsStrGt b a = false → a = b := by
  intro a
  induction a with
  | nil =>
    intro b h1 h2
    match b with
    | [] => rfl
    | y :: ys => rw [jsStrGt] at h2; cases h2
  | cons x xs ih =>
    intro b h1 h2
    match b with
    | [] => rw [jsStrGt] at h1; cases h1
    | y :: ys =>
      rw [jsStrGt] at h1 h2
      by_cases hxy : x = y
      · subst hxy
        rw [if_pos rfl] at h1 h2
        rw [ih h1 h2]
      · rw [if_neg hxy] at h1
        rw [if_neg (Ne.symm hxy)] at h2
        simp only [decide_eq_false_iff_not] at h1 h2
        exact absurd (charToNat_inj (by omega)) hxy

theorem jsEqNum_eq {x y : JSNum} (h : jsEqNum x y = true) : x = y := by
  cases x <;> cases y <;>
    first
      | rfl
      | (simp [jsEqNum] at h; rw [h])
      | simp [jsEqNum] at h

theorem jsEqNum_self {x : JSNum} (h : x ≠ .nan) : jsEqNum x x = true := by
  cases x <;> simp [jsEqNum] at h ⊢

theorem jsGtZero_not_nan {x : JSNum} (h : jsGtZero x = true) : x ≠ .nan := by
  cases x <;> simp [jsGtZero] at h ⊢

theorem jsGtNum_total {x y : JSNum} (hx : jsGtZero x = true) (hy : jsGtZero y = true)
    (hne : jsEqNum x y ≠ true) : jsGtNum x y = true ∨ jsGtNum y x = true := by
  cases x with
  | fin qa =>
    cases y with
    | fin qb =>
      simp only [jsEqNum, ne_eq, decide_eq_true_eq] at hne
      simp only [jsGtNum, decide_eq_true_eq]
      rcases lt_trichotomy qa qb with h | h | h
      · exact Or.inr h
      · exact absurd h hne
      · exact Or.inl h
    | inf => exact Or.inr rfl
    | nan => simp [jsGtZero] at hy
    | neginf => simp [jsGtZero] at hy
  | inf =>
    cases y with
    | fin qb => exact Or.inl rfl
    | inf => exact absurd rfl hne
    | nan => simp [jsGtZero] at hy
    | neginf => simp [jsGtZero] at hy
  | nan => simp [jsGtZero] at hx
  | neginf => simp [jsGtZero] at hx

theorem jsGtNum_trans {x y z : JSNum} (hy : jsGtZero y = true)
    (h1 : jsGtNum x y = true) (h2 : jsGtNum y z = true) : jsGtNum x z = true := by
  cases x <;> cases y <;> cases z <;>
    simp_all [jsGtNum, jsGtZero]
  exact lt_trans ‹_› ‹_›

theorem jsGtNum_irrefl {x : JSNum} (hx : jsGtZero x = true) : jsGtNum x x = false := by
  cases x <;> simp_all [jsGtNum, jsGtZero]

theorem searchLe_total {a b : FuzzySearchResult}
    (ha : jsGtZero a.score = true) (hb : jsGtZero b.score = true) :
    searchLe a b = true ∨ searchLe b a = true := by
  unfold searchLe
  by_cases heq : jsEqNum a.score b.score = true
  · have heq' : jsEqNum b.score a.score = true := by
      rw [jsEqNum_eq heq]
      exact jsEqNum_self (jsGtZero_not_nan hb)
    rw [heq, heq']
    simp only [if_true]
    rcases hgt : jsStrGt a.source b.source with - | -
    · left; rfl
    · right
      rw [jsStrGt_asymm hgt]
      rfl
  · have heq' : jsEqNum b.score a.score ≠ true := by
      intro hcon
      rw [jsEqNum_eq hcon] at heq
      exact heq (jsEqNum_self (jsGtZero_not_nan ha))
    rw [if_neg heq, if_neg heq']
    exact jsGtNum_total ha hb heq

theorem jsStrGt_false_trans {a b c : List Char} (h1 : jsStrGt a b = false)
    (h2 : jsStrGt b c = false) : jsStrGt a c = false := by
  rcases hba : jsStrGt b a with - | -
  · have hab : a = b := jsStrGt_eq_of_not h1 hba
    rw [hab]
    exact h2
  · rcases hac : jsStrGt a c with - | -
    · rfl
    · have := jsStrGt_trans hba hac
      rw [h2] at this
      cases this

theorem searchLe_trans {a b c : FuzzySearchResult}
    (ha : jsGtZero a.score = true) (hb : jsGtZero b.score = true)
    (hc : jsGtZero c.score = true)
    (h1 : searchLe a b = true) (h2 : searchLe b c = true) : searchLe a c = true := by
  unfold searchLe at h1 h2 ⊢
  by_cases e1 : jsEqNum a.score b.score = true
  · have eab := jsEqNum_eq e1
    rw [e1] at h1
    simp only [if_true] at h1
    by_cases e2 : jsEqNum b.score c.score = true
    · have ebc := jsEqNum_eq e2
      rw [e2] at h2
      simp only [if_true] at h2
      have eac : jsEqNum a.score c.score = true := by
        rw [eab, ebc]
        exact jsEqNum_self (jsGtZero_not_nan hc)
      rw [eac]
      simp only [if_true]
      rw [Bool.not_eq_true'] at h1 h2 ⊢
      exact jsStrGt_false_trans h1 h2
    · rw [if_neg e2] at h2
      have eac : jsEqNum a.score c.score ≠ true := by
        intro hcon
        apply e2
        rw [← eab]
        exact hcon
      rw [if_neg eac, eab]
      exact h2
  · rw [if_neg e1] at h1
    by_cases e2 : jsEqNum b.score c.score = true
    · have ebc := jsEqNum_eq e2
      have eac : jsEqNum a.score c.score ≠ true := by
        intro hcon
        apply e1
        rw [← ebc] at hcon
        exact hcon
      rw [if_neg eac, ← ebc]
      exact h1
    · rw [if_neg e2] at h2
      have hac := jsGtNum_trans hb h1 h2
      have eac : jsEqNum a.score c.score ≠ true := by
        intro hcon
        have he := jsEqNum_eq hcon
        rw [he, jsGtNum_irrefl hc] at hac
        cases hac
      rw [if_neg eac]
      exact hac

/-- The ordering the specification claims for `fuzzySearch` output:
score strictly descending, with exact score ties broken by the original
source string ascending. -/
def searchOrd (x y : FuzzySearchResult) : Prop :=
  jsGtNum x.score y.score = true ∨
  (x.score = y.score ∧ jsStrGt x.source y.source = false)

theorem searchLe_ord {a b : FuzzySearchResult}
    (h : searchLe a b = true) : searchOrd a b := by
  unfold searchLe at h
  by_cases e : jsEqNum a.score b.score = true
  · rw [e] at h
    simp only [if_true] at h
    rw [Bool.not_eq_true'] at h
    exact Or.inr ⟨jsEqNum_eq e, h⟩
  · rw [if_neg e] at h
    exact Or.inl h

/-! ### The comparison-sort model: permutation and sortedness -/

theorem insertCmp_perm (le : FuzzySearchResult → FuzzySearchResult → Bool)
    (a : FuzzySearchResult) :
    ∀ l, (insertCmp le a l).Perm (a :: l) := by
  intro l
  induction l with
  | nil => exact List.Perm.refl _
  | cons b bs ih =>
    rw [insertCmp]
    split
    · exact List.Perm.refl _
    · exact List.Perm.trans (ih.cons b) (List.Perm.swap a b bs)

theorem sortCmp_perm (le : FuzzySearchResult → FuzzySearchResult → Bool) :
    ∀ l, (sortCmp le l).Perm l := by
  intro l
  induction l with
  | nil => exact List.Perm.refl _
  | cons a as ih =>
    rw [sortCmp]
    exact List.Perm.trans (insertCmp_perm le a (sortCmp le as)) (ih.cons a)

theorem pairwise_insertCmp :
    ∀ {l : List FuzzySearchResult} {a : FuzzySearchResult},
      jsGtZero a.score = true → (∀ x ∈ l, jsGtZero x.score = true) →
      l.Pairwise (fun x y => searchLe x y = true) →
      (insertCmp searchLe a l).Pairwise (fun x y => searchLe x y = true) := by
  intro l
  induction l with
  | nil =>
    intro a _ _ _
    simp [insertCmp]
  | cons b bs ih =>
    intro a hPa hPl hpw
    rw [insertCmp]
    rw [List.pairwise_cons] at hpw
    obtain ⟨hb_all, hpw_bs⟩ := hpw
    have hPb : jsGtZero b.score = true := hPl b (List.mem_cons_self _ _)
    split
    · rename_i hab
      rw [List.pairwise_cons]
      constructor
      · intro y hy
        rcases List.mem_cons.mp hy with rfl | hy'
        · exact hab
        · exact searchLe_trans hPa hPb
            (hPl y (List.mem_cons_of_mem _ hy')) hab (hb_all y hy')
      · rw [List.pairwise_cons]
        exact ⟨hb_all, hpw_bs⟩
    · rename_i hab
      have hba : searchLe b a = true := by
        rcases searchLe_total hPa hPb with h | h
        · exact absurd h hab
        · exact h
      rw [List.pairwise_cons]
      constructor
      · intro y hy
        have hmem : y = a ∨ y ∈ bs := by
          have := (insertCmp_perm searchLe a bs).mem_iff.mp hy
          exact List.mem_cons.mp this
        rcases hmem with rfl | hy'
        · exact hba
        · exact hb_all y hy'
      · exact ih hPa (fun x hx => hPl x (List.mem_cons_of_mem _ hx)) hpw_bs

theorem pairwise_sortCmp :
    ∀ {l : List FuzzySearchResult}, (∀ x ∈ l, jsGtZero x.score = true) →
      (sortCmp searchLe l).Pairwise (fun x y => searchLe x y = true) := by
  intro l
  induction l with
  | nil => intro _; simp [sortCmp]
  | cons a as ih =>
    intro hP
    rw [sortCmp]
    refine pairwise_insertCmp (hP a (List.mem_cons_self _ _)) ?_
      (ih (fun x hx => hP x (List.mem_cons_of_mem _ hx)))
    intro x hx
    exact hP x (List.mem_cons_of_mem a ((sortCmp_perm searchLe as).mem_iff.mp hx))

theorem searchResults_score_pos {q : List Char} {cs : List (List Char)} {b : ℚ}
    {r : FuzzySearchResult} (h : r ∈ searchResults q cs b) :
    jsGtZero r.score = true := by
  unfold searchResults at h
  rw [List.mem_filterMap] at h
  obtain ⟨p, hp, hfx⟩ := h
  dsimp only at hfx
  split at hfx
  · cases hfx
    assumption
  · cases hfx

theorem searchResults_mem {q : List Char} {cs : List (List Char)} {b : ℚ}
    {r : FuzzySearchResult} (h : r ∈ searchResults q cs b) :
    cs[r.sourceIndex]? = some r.source ∧
    r.score = (fuzzyMatch q r.source b).score ∧
    r.positions = (fuzzyMatch q r.source b).positions := by
  unfold searchResults at h
  rw [List.mem_filterMap] at h
  obtain ⟨⟨i, src⟩, hp, hfx⟩ := h
  obtain ⟨hi, hsrc⟩ := List.mem_enum hp
  dsimp only at hfx
  split at hfx
  · cases hfx
    refine ⟨?_, rfl, rfl⟩
    rw [List.getElem?_eq_getElem hi, hsrc]
  · cases hfx

/-! ### Per-matcher position specifications -/

theorem fuzzyMatchScore_nil (s : List Char) : fuzzyMatchScore s [] = .nan := by
  unfold fuzzyMatchScore
  simp only [List.length_nil, Nat.cast_zero, List.foldl_nil]
  by_cases hl : ((s.length : ℚ)) = 0
  · rw [hl]
    norm_num [jsDiv, jsSub]
  · have hinner : jsDiv (.fin 0) (.fin ((s.length : ℚ))) = .fin 0 := by
      simp only [jsDiv]
      rw [if_neg hl]
      norm_num
    rw [hinner]
    norm_num [jsDiv, jsSub]

theorem tokens_positions_spec {q s : List Char}
    (h : jsGtZero (fuzzyMatchByTokens q s).score = true) :
    (fuzzyMatchByTokens q s).positions.map (fun p => jsToLower (s.getD p ' ')) = lowerStrip q ∧
    ∀ p ∈ (fuzzyMatchByTokens q s).positions, p < s.length := by
  unfold fuzzyMatchByTokens at h ⊢
  rcases hgo : tokenGo s (scanStarts s 0 false) (lowerStrip q) 0 [] with - | ms
  · rw [hgo] at h
    norm_num [jsGtZero] at h
  · rw [hgo] at h
    exact fuzzyMatchByTokens_positions hgo

theorem wildcard_getD_map {s : List Char} {ms : List ℕ}
    (hval : ∀ p ∈ ms, p < s.length) :
    ms.map (fun p => (s.map jsToLower).getD p ' ') =
      ms.map (fun p => jsToLower (s.getD p ' ')) := by
  apply List.map_congr_left
  intro p hp
  have hps : p < s.length := hval p hp
  have hv : s[p]? = some (s.get ⟨p, hps⟩) := List.getElem?_eq_getElem hps
  rw [List.getD_eq_getElem?_getD, List.getD_eq_getElem?_getD, List.getElem?_map, hv]
  rfl

theorem wildcard_positions_spec {q s : List Char}
    (h : jsGtZero (fuzzyMatchByWildcard q s).score = true) :
    (fuzzyMatchByWildcard q s).positions.map (fun p => jsToLower (s.getD p ' ')) = lowerStrip q ∧
    ∀ p ∈ (fuzzyMatchByWildcard q s).positions, p < s.length := by
  unfold fuzzyMatchByWildcard at h ⊢
  rcases hloop : wildcardLoop (s.map jsToLower) (lowerStrip q) 0 with - | ms
  · rw [hloop] at h
    norm_num [jsGtZero] at h
  · rw [hloop] at h
    have hg := wildcardLoop_some_greedy (fun x hx => lowerStrip_fixed hx) hloop
    obtain ⟨hmap, hval⟩ := greedyPick_map hg
    have hval' : ∀ p ∈ ms, p < s.length := by
      intro p hp
      have := (hval p hp).2
      simpa using this
    show ms.map (fun p => jsToLower (s.getD p ' ')) = lowerStrip q ∧ ∀ p ∈ ms, p < s.length
    refine ⟨?_, hval'⟩
    rw [← wildcard_getD_map hval', hmap]

theorem fuzzyMatchByTokens_emptyq {q s : List Char} (hq : lowerStrip q = []) :
    fuzzyMatchByTokens q s = ⟨.nan, []⟩ := by
  simp only [fuzzyMatchByTokens, hq, tokenGo, tokenMunch, fuzzyMatchScore_nil]

theorem fuzzyMatchByWildcard_emptyq {q s : List Char} (hq : lowerStrip q = []) :
    fuzzyMatchByWildcard q s = ⟨.nan, []⟩ := by
  simp only [fuzzyMatchByWildcard, hq, wildcardLoop, fuzzyMatchScore_nil]

/-! ### Claim theorems -/

/-- C1 (code bug): the documented Match Result invariant — `score == 0` iff
`matches` is empty, and every successful (non-empty) match has `score > 0` —
is violated by the code: `match("g", "go")` returns the non-empty match `[0]`
with score `-2` (the scorer's denominator `0 - 1/2` is negative), which is
not `> 0` and is then silently treated as a non-match by `fuzzySearch`. -/
theorem fuzzyMatch_invariant_violated_at_g_go :
    (fuzzyMatch ['g'] ['g', 'o'] 10).positions = [0] ∧
    (fuzzyMatch ['g'] ['g', 'o'] 10).score = .fin (-2) ∧
    jsGtZero (fuzzyMatch ['g'] ['g', 'o'] 10).score = false := by
  have hm : fuzzyMatch ['g'] ['g', 'o'] 10 = ⟨.fin (-2), [0]⟩ := by
    norm_num +decide [fuzzyMatch, fuzzyMatchByTokens, fuzzyMatchByWildcard, tokenGo,
      tokenMunch, wildcardLoop, findIdxFromP, scanStarts, lowerStrip, jsToLower,
      fuzzyMatchScore, jsDiv, jsSub, jsMulQ, jsGtZero, isJsSpace, isAsciiLetter,
      isLowerAZ, isUpperAZ, isRunChar, runLen]
  rw [hm]
  norm_num [jsGtZero]

/-- C2 (code bug): the spec says successful matches are strictly increasing
(the token cursor is only ever supposed to jump to the next token strictly
after it), but the stateful regex's `lastIndex` lags behind the cursor, so a
mismatch can jump the cursor backwards: `match("abaa", "abAcd")` succeeds
with positions `[0, 1, 2, 0]` and positive score `200/11`. -/
theorem fuzzyMatch_positions_not_increasing_at_abaa :
    (fuzzyMatch ['a', 'b', 'a', 'a'] ['a', 'b', 'A', 'c', 'd'] 10).positions = [0, 1, 2, 0] ∧
    jsGtZero (fuzzyMatch ['a', 'b', 'a', 'a'] ['a', 'b', 'A', 'c', 'd'] 10).score = true ∧
    ¬ List.Chain' (fun a b => a < b)
      (fuzzyMatch ['a', 'b', 'a', 'a'] ['a', 'b', 'A', 'c', 'd'] 10).positions := by
  have hm : fuzzyMatch ['a', 'b', 'a', 'a'] ['a', 'b', 'A', 'c', 'd'] 10 =
      ⟨.fin (200 / 11), [0, 1, 2, 0]⟩ := by
    norm_num +decide [fuzzyMatch, fuzzyMatchByTokens, fuzzyMatchByWildcard, tokenGo,
      tokenMunch, wildcardLoop, findIdxFromP, scanStarts, lowerStrip, jsToLower,
      fuzzyMatchScore, jsDiv, jsSub, jsMulQ, jsGtZero, isJsSpace, isAsciiLetter,
      isLowerAZ, isUpperAZ, isRunChar, runLen]
  rw [hm]
  refine ⟨rfl, by norm_num [jsGtZero], ?_⟩
  simp [List.chain'_cons]

/-- C3 (counterexample): "query longer than the source returns the no-match
result" fails: `"a "` (length 2, whitespace-padded) against `"a"` (length 1)
returns the non-empty match `[0]` with score `-1`, not `{score: 0, matches: []}`. -/
theorem fuzzyMatch_longer_query_counterexample :
    (['a', ' '] : List Char).length > (['a'] : List Char).length ∧
    fuzzyMatch ['a', ' '] ['a'] 10 = ⟨.fin (-1), [0]⟩ ∧
    fuzzyMatch ['a', ' '] ['a'] 10 ≠ ⟨.fin 0, []⟩ := by
  have hm : fuzzyMatch ['a', ' '] ['a'] 10 = ⟨.fin (-1), [0]⟩ := by
    norm_num +decide [fuzzyMatch, fuzzyMatchByTokens, fuzzyMatchByWildcard, tokenGo,
      tokenMunch, wildcardLoop, findIdxFromP, scanStarts, lowerStrip, jsToLower,
      fuzzyMatchScore, jsDiv, jsSub, jsMulQ, jsGtZero, isJsSpace, isAsciiLetter,
      isLowerAZ, isUpperAZ, isRunChar, runLen]
  refine ⟨by norm_num, hm, ?_⟩
  rw [hm]
  simp

/-- C3 (amended): a query whose whitespace-stripped form is empty yields
empty matches with a `NaN` score (not score `0`; still treated as no match
downstream because `NaN > 0` is false); a query with non-empty stripped form
against the empty source yields the no-match result `{score: 0, matches: []}`.
All operations are total functions, so no input raises an exception.  The
original "query longer than the source" guarantee does not hold (see the
counterexample). -/
theorem fuzzyMatch_degenerate_inputs (q s : List Char) :
    (lowerStrip q = [] → fuzzyMatch q s 10 = ⟨.nan, []⟩) ∧
    (lowerStrip q ≠ [] → fuzzyMatch q [] 10 = ⟨.fin 0, []⟩) := by
  constructor
  · intro hq
    simp only [fuzzyMatch, fuzzyMatchByTokens_emptyq hq, fuzzyMatchByWildcard_emptyq hq]
    norm_num [jsGtZero]
  · intro hq
    obtain ⟨c, cs, heq⟩ := List.exists_cons_of_ne_nil hq
    simp only [fuzzyMatch, fuzzyMatchByTokens, fuzzyMatchByWildcard, heq, scanStarts,
      tokenGo, tokenMunch, wildcardLoop, findIdxFromP, List.map_nil, List.length_nil]
    norm_num [jsGtZero]

/-- Witness for C3 (amended) at concrete inputs: the whitespace-only query
`" "` against `"x"`, and the query `"a"` against the empty source. -/
theorem fuzzyMatch_degenerate_inputs_witness :
    fuzzyMatch [' '] ['x'] 10 = ⟨.nan, []⟩ ∧
    fuzzyMatch ['a'] [] 10 = ⟨.fin 0, []⟩ :=
  ⟨(fuzzyMatch_degenerate_inputs [' '] ['x']).1
      (by norm_num +decide [lowerStrip, jsToLower, isJsSpace]),
   (fuzzyMatch_degenerate_inputs ['a'] []).2
      (by norm_num +decide [lowerStrip, jsToLower, isJsSpace])⟩

/-- C5: `fuzzyMatchScore(source, positions)` computes exactly
`n / (S - n / L)` where `L` is the source length, `n` the number of
positions and `S` their sum — whenever that expression is mathematically
defined (`L ≠ 0` and non-zero denominator; in the remaining degenerate cases
JS produces `NaN`/`Infinity`, modelled by `JSNum.nan`/`JSNum.inf`). -/
theorem fuzzyMatchScore_formula (source : List Char) (positions : List ℕ)
    (hL : source.length ≠ 0)
    (hd : ((positions.map (fun (m : ℕ) => (m : ℚ))).sum -
      (positions.length : ℚ) / (source.length : ℚ)) ≠ 0) :
    fuzzyMatchScore source positions =
      .fin ((positions.length : ℚ) /
        ((positions.map (fun (m : ℕ) => (m : ℚ))).sum -
          (positions.length : ℚ) / (source.length : ℚ))) := by
  unfold fuzzyMatchScore
  have hfold : positions.foldl (fun (s : ℚ) (m : ℕ) => s + (m : ℚ)) 0 =
      (positions.map (fun (m : ℕ) => (m : ℚ))).sum := by
    rw [List.sum_eq_foldl, List.foldl_map]
  have hLq : ((source.length : ℚ)) ≠ 0 := Nat.cast_ne_zero.mpr hL
  simp only [hfold]
  have h1 : jsDiv (.fin (positions.length : ℚ)) (.fin (source.length : ℚ)) =
      .fin ((positions.length : ℚ) / (source.length : ℚ)) := by
    simp only [jsDiv]
    rw [if_neg hLq]
  rw [h1]
  have h2 : jsSub (.fin ((positions.map (fun (m : ℕ) => (m : ℚ))).sum))
      (.fin ((positions.length : ℚ) / (source.length : ℚ))) =
      .fin ((positions.map (fun (m : ℕ) => (m : ℚ))).sum -
        (positions.length : ℚ) / (source.length : ℚ)) := by
    simp only [jsSub]
  rw [h2]
  simp only [jsDiv]
  rw [if_neg hd]

/-- Witness for C5: source `"abc"`, positions `[0, 1]`:
score `2 / (1 - 2/3) = 6`. -/
theorem fuzzyMatchScore_formula_witness :
    fuzzyMatchScore ['a', 'b', 'c'] [0, 1] = .fin 6 := by
  have h := fuzzyMatchScore_formula ['a', 'b', 'c'] [0, 1] (by norm_num) (by norm_num)
  rw [h]
  norm_num

/-- C6: `fuzzyMatch` runs the token matcher first; when its score is greater
than `0` it returns that score multiplied by `tokenScoreBias` with the token
matcher's unchanged positions, and otherwise returns the wildcard matcher's
result unmodified. -/
theorem fuzzyMatch_orchestration (q s : List Char) (bias : ℚ) :
    (jsGtZero (fuzzyMatchByTokens q s).score = true →
      fuzzyMatch q s bias =
        ⟨jsMulQ (fuzzyMatchByTokens q s).score bias, (fuzzyMatchByTokens q s).positions⟩) ∧
    (jsGtZero (fuzzyMatchByTokens q s).score = false →
      fuzzyMatch q s bias = fuzzyMatchByWildcard q s) := by
  constructor
  · intro h
    simp only [fuzzyMatch]
    rw [if_pos h]
  · intro h
    simp only [fuzzyMatch, h]
    simp

/-- Witness for C6: `"text"` vs `"getText"` takes the token branch (score
`14/61` biased by 10 to `140/61`); `"text"` vs `"batchExtract"` falls back
to the wildcard matcher. -/
theorem fuzzyMatch_orchestration_witness :
    fuzzyMatch ['t', 'e', 'x', 't'] ['g', 'e', 't', 'T', 'e', 'x', 't'] 10 =
      ⟨jsMulQ (fuzzyMatchByTokens ['t', 'e', 'x', 't'] ['g', 'e', 't', 'T', 'e', 'x', 't']).score 10,
        (fuzzyMatchByTokens ['t', 'e', 'x', 't'] ['g', 'e', 't', 'T', 'e', 'x', 't']).positions⟩ ∧
    fuzzyMatch ['t', 'e', 'x', 't'] ['b', 'a', 't', 'c', 'h', 'E', 'x', 't', 'r', 'a', 'c', 't'] 10 =
      fuzzyMatchByWildcard ['t', 'e', 'x', 't'] ['b', 'a', 't', 'c', 'h', 'E', 'x', 't', 'r', 'a', 'c', 't'] :=
  ⟨(fuzzyMatch_orchestration ['t', 'e', 'x', 't'] ['g', 'e', 't', 'T', 'e', 'x', 't'] 10).1 (by
      have hm : fuzzyMatchByTokens ['t', 'e', 'x', 't'] ['g', 'e', 't', 'T', 'e', 'x', 't'] =
          ⟨.fin (14 / 61), [3, 4, 5, 6]⟩ := by
        norm_num +decide [fuzzyMatchByTokens, tokenGo, tokenMunch, findIdxFromP, scanStarts,
          lowerStrip, jsToLower, fuzzyMatchScore, jsDiv, jsSub, jsGtZero, isJsSpace,
          isAsciiLetter, isLowerAZ, isUpperAZ, isRunChar, runLen]
      rw [hm]
      norm_num [jsGtZero]),
   (fuzzyMatch_orchestration ['t', 'e', 'x', 't'] ['b', 'a', 't', 'c', 'h', 'E', 'x', 't', 'r', 'a', 'c', 't'] 10).2 (by
      have hm : fuzzyMatchByTokens ['t', 'e', 'x', 't'] ['b', 'a', 't', 'c', 'h', 'E', 'x', 't', 'r', 'a', 'c', 't'] =
          ⟨.fin 0, []⟩ := by
        norm_num +decide [fuzzyMatchByTokens, tokenGo, tokenMunch, findIdxFromP, scanStarts,
          lowerStrip, jsToLower, fuzzyMatchScore, jsDiv, jsSub, jsGtZero, isJsSpace,
          isAsciiLetter, isLowerAZ, isUpperAZ, isRunChar, runLen]
      rw [hm]
      norm_num [jsGtZero])⟩

/-- C9: query `"g"` is a case-insensitive subsequence of candidate `"go"` —
both matchers return the non-empty positions `[0]` — yet `fuzzyMatch`
returns the negative score `-2` (denominator `0 - 1/2`), so `fuzzySearch`
over `["go"]` silently drops the candidate via its `score > 0` filter. -/
theorem fuzzyMatch_negative_score_dropped :
    (fuzzyMatchByTokens ['g'] ['g', 'o']).positions = [0] ∧
    (fuzzyMatchByWildcard ['g'] ['g', 'o']).positions = [0] ∧
    fuzzyMatch ['g'] ['g', 'o'] 10 = ⟨.fin (-2), [0]⟩ ∧
    fuzzySearch ['g'] [['g', 'o']] 10 = [] := by
  have h1 : fuzzyMatchByTokens ['g'] ['g', 'o'] = ⟨.fin (-2), [0]⟩ := by
    norm_num +decide [fuzzyMatchByTokens, tokenGo, tokenMunch, findIdxFromP, scanStarts,
      lowerStrip, jsToLower, fuzzyMatchScore, jsDiv, jsSub, jsGtZero, isJsSpace,
      isAsciiLetter, isLowerAZ, isUpperAZ, isRunChar, runLen]
  have h2 : fuzzyMatchByWildcard ['g'] ['g', 'o'] = ⟨.fin (-2), [0]⟩ := by
    norm_num +decide [fuzzyMatchByWildcard, wildcardLoop, findIdxFromP, lowerStrip,
      jsToLower, fuzzyMatchScore, jsDiv, jsSub, isJsSpace]
  have h3 : fuzzyMatch ['g'] ['g', 'o'] 10 = ⟨.fin (-2), [0]⟩ := by
    simp only [fuzzyMatch, h1]
    norm_num [jsGtZero, h2]
  refine ⟨by rw [h1], by rw [h2], h3, ?_⟩
  unfold fuzzySearch searchResults
  simp only [List.enum, List.enumFrom, List.filterMap_cons, List.filterMap_nil, h3]
  norm_num [jsGtZero, sortCmp]

/-- C4: the list returned by `fuzzySearch` is pairwise ordered by score
strictly descending, with exactly equal scores appearing in ascending
(code-unit lexicographic, case-sensitive, original-string) order of their
sources. -/
theorem fuzzySearch_sorted (q : List Char) (cs : List (List Char)) (bias : ℚ) :
    (fuzzySearch q cs bias).Pairwise searchOrd := by
  unfold fuzzySearch
  have hP : ∀ x ∈ searchResults q cs bias, jsGtZero x.score = true :=
    fun x hx => searchResults_score_pos hx
  exact (pairwise_sortCmp hP).imp (fun h => searchLe_ord h)

/-- C7 (counterexample): the claimed equivalence "non-empty matches exactly
when the stripped query is a subsequence of the lower-cased source" fails
for queries that strip to nothing: the empty query is a subsequence of
`"a"`, yet the wildcard matcher returns empty matches. -/
theorem fuzzyMatchByWildcard_empty_query_counterexample :
    (lowerStrip []).Sublist (['a'].map jsToLower) ∧
    (fuzzyMatchByWildcard [] ['a']).positions = [] := by
  constructor
  · simp [lowerStrip]
  · rw [fuzzyMatchByWildcard_emptyq (by simp [lowerStrip])]

/-- C7 (amended): for queries whose whitespace-stripped, lower-cased form is
non-empty, the wildcard matcher returns non-empty matches exactly when that
stripped query is a subsequence of the lower-cased source, and then the
returned positions are the spec's leftmost-greedy subsequence (each position
the smallest index at or after the previous position plus one holding the
required character), hence strictly increasing. -/
theorem fuzzyMatchByWildcard_subsequence (q s : List Char)
    (hq : lowerStrip q ≠ []) :
    ((fuzzyMatchByWildcard q s).positions ≠ [] ↔
      (lowerStrip q).Sublist (s.map jsToLower)) ∧
    ((fuzzyMatchByWildcard q s).positions ≠ [] →
      GreedyPick (s.map jsToLower) 0 (lowerStrip q) (fuzzyMatchByWildcard q s).positions ∧
      List.Chain' (fun a b => a < b) (fuzzyMatchByWildcard q s).positions) := by
  have hfix : ∀ x ∈ lowerStrip q, jsToLower x = x := fun x hx => lowerStrip_fixed hx
  unfold fuzzyMatchByWildcard
  rcases hloop : wildcardLoop (s.map jsToLower) (lowerStrip q) 0 with - | ms
  · have hns := wildcardLoop_none_not_sublist hfix hloop
    rw [List.drop_zero] at hns
    constructor
    · show ([] : List ℕ) ≠ [] ↔ _
      simp [hns]
    · intro hcon
      exact absurd rfl hcon
  · have hg := wildcardLoop_some_greedy hfix hloop
    have hlen := greedyPick_length hg
    have hsub := greedyPick_sublist hg
    rw [List.drop_zero] at hsub
    have hne : ms ≠ [] := by
      intro hcon
      rw [hcon] at hlen
      exact hq (List.length_eq_zero.mp hlen.symm)
    constructor
    · show ms ≠ [] ↔ _
      exact ⟨fun _ => hsub, fun _ => hne⟩
    · intro hpos
      exact ⟨hg, greedyPick_chain hg⟩

/-- Witness for C7 (amended) at query `"a"`, source `"a"`. -/
theorem fuzzyMatchByWildcard_subsequence_witness :
    ((fuzzyMatchByWildcard ['a'] ['a']).positions ≠ [] ↔
      (lowerStrip ['a']).Sublist ((['a'] : List Char).map jsToLower)) ∧
    ((fuzzyMatchByWildcard ['a'] ['a']).positions ≠ [] →
      GreedyPick ((['a'] : List Char).map jsToLower) 0 (lowerStrip ['a'])
        (fuzzyMatchByWildcard ['a'] ['a']).positions ∧
      List.Chain' (fun a b => a < b) (fuzzyMatchByWildcard ['a'] ['a']).positions) :=
  fuzzyMatchByWildcard_subsequence ['a'] ['a']
    (by norm_num +decide [lowerStrip, jsToLower, isJsSpace])

/-- C8: whenever `fuzzyMatch` (default bias 10) reports a positive score,
the returned positions spell out the whitespace-stripped lower-cased query —
one position per stripped query character (so the lengths agree), each a
valid index into the source whose character, lower-cased, is the
corresponding query character. -/
theorem fuzzyMatch_positions_faithful (q s : List Char)
    (h : jsGtZero (fuzzyMatch q s 10).score = true) :
    (fuzzyMatch q s 10).positions.map (fun p => jsToLower (s.getD p ' ')) = lowerStrip q ∧
    (fuzzyMatch q s 10).positions.length = (lowerStrip q).length ∧
    ∀ p ∈ (fuzzyMatch q s 10).positions, p < s.length := by
  rcases ht : jsGtZero (fuzzyMatchByTokens q s).score with - | -
  · have he : fuzzyMatch q s 10 = fuzzyMatchByWildcard q s := by
      simp only [fuzzyMatch, ht]
      simp
    rw [he] at h ⊢
    obtain ⟨hmap, hval⟩ := wildcard_positions_spec h
    exact ⟨hmap, by rw [← hmap]; simp, hval⟩
  · have he : fuzzyMatch q s 10 =
        ⟨jsMulQ (fuzzyMatchByTokens q s).score 10, (fuzzyMatchByTokens q s).positions⟩ := by
      simp only [fuzzyMatch]
      rw [if_pos ht]
    rw [he]
    dsimp only
    obtain ⟨hmap, hval⟩ := tokens_positions_spec ht
    exact ⟨hmap, by rw [← hmap]; simp, hval⟩

/-- Witness for C8 at query `"text"`, source `"getText"`
(positions `[3, 4, 5, 6]`). -/
theorem fuzzyMatch_positions_faithful_witness :
    (fuzzyMatch ['t', 'e', 'x', 't'] ['g', 'e', 't', 'T', 'e', 'x', 't'] 10).positions.map
        (fun p => jsToLower ((['g', 'e', 't', 'T', 'e', 'x', 't'] : List Char).getD p ' ')) =
      lowerStrip ['t', 'e', 'x', 't'] ∧
    (fuzzyMatch ['t', 'e', 'x', 't'] ['g', 'e', 't', 'T', 'e', 'x', 't'] 10).positions.length =
      (lowerStrip ['t', 'e', 'x', 't']).length ∧
    ∀ p ∈ (fuzzyMatch ['t', 'e', 'x', 't'] ['g', 'e', 't', 'T', 'e', 'x', 't'] 10).positions,
      p < (['g', 'e', 't', 'T', 'e', 'x', 't'] : List Char).length :=
  fuzzyMatch_positions_faithful ['t', 'e', 'x', 't'] ['g', 'e', 't', 'T', 'e', 'x', 't'] (by
    have hm : fuzzyMatch ['t', 'e', 'x', 't'] ['g', 'e', 't', 'T', 'e', 'x', 't'] 10 =
        ⟨.fin (140 / 61), [3, 4, 5, 6]⟩ := by
      norm_num +decide [fuzzyMatch, fuzzyMatchByTokens, fuzzyMatchByWildcard, tokenGo,
        tokenMunch, wildcardLoop, findIdxFromP, scanStarts, lowerStrip, jsToLower,
        fuzzyMatchScore, jsDiv, jsSub, jsMulQ, jsGtZero, isJsSpace, isAsciiLetter,
        isLowerAZ, isUpperAZ, isRunChar, runLen]
    rw [hm]
    norm_num [jsGtZero])

/-- C10: every result returned by `fuzzySearch` is faithful to its
candidate: its `source` is the candidate stored at its `sourceIndex` in the
input list, and its `score` and `matches` are exactly those of
`fuzzyMatch(query, source, options)` for that candidate. -/
theorem fuzzySearch_results_faithful (q : List Char) (cs : List (List Char))
    (bias : ℚ) (r : FuzzySearchResult) (h : r ∈ fuzzySearch q cs bias) :
    cs[r.sourceIndex]? = some r.source ∧
    r.score = (fuzzyMatch q r.source bias).score ∧
    r.positions = (fuzzyMatch q r.source bias).positions := by
  unfold fuzzySearch at h
  exact searchResults_mem ((sortCmp_perm searchLe _).mem_iff.mp h)

/-- Witness for C10: searching `"text"` in `["getText"]` returns the single
result `{score: 140/61, matches: [3,4,5,6], source: "getText", sourceIndex: 0}`. -/
theorem fuzzySearch_results_faithful_witness :
    ([['g', 'e', 't', 'T', 'e', 'x', 't']] : List (List Char))[(0 : ℕ)]? =
      some ['g', 'e', 't', 'T', 'e', 'x', 't'] ∧
    (JSNum.fin (140 / 61)) =
      (fuzzyMatch ['t', 'e', 'x', 't'] ['g', 'e', 't', 'T', 'e', 'x', 't'] 10).score ∧
    ([3, 4, 5, 6] : List ℕ) =
      (fuzzyMatch ['t', 'e', 'x', 't'] ['g', 'e', 't', 'T', 'e', 'x', 't'] 10).positions :=
  fuzzySearch_results_faithful ['t', 'e', 'x', 't'] [['g', 'e', 't', 'T', 'e', 'x', 't']] 10
    ⟨.fin (140 / 61), [3, 4, 5, 6], ['g', 'e', 't', 'T', 'e', 'x', 't'], 0⟩ (by
      have hm : fuzzyMatch ['t', 'e', 'x', 't'] ['g', 'e', 't', 'T', 'e', 'x', 't'] 10 =
          ⟨.fin (140 / 61), [3, 4, 5, 6]⟩ := by
        norm_num +decide [fuzzyMatch, fuzzyMatchByTokens, fuzzyMatchByWildcard, tokenGo,
          tokenMunch, wildcardLoop, findIdxFromP, scanStarts, lowerStrip, jsToLower,
          fuzzyMatchScore, jsDiv, jsSub, jsMulQ, jsGtZero, isJsSpace, isAsciiLetter,
          isLowerAZ, isUpperAZ, isRunChar, runLen]
      have hs : fuzzySearch ['t', 'e', 'x', 't'] [['g', 'e', 't', 'T', 'e', 'x', 't']] 10 =
          [⟨.fin (140 / 61), [3, 4, 5, 6], ['g', 'e', 't', 'T', 'e', 'x', 't'], 0⟩] := by
        unfold fuzzySearch searchResults
        simp only [List.enum, List.enumFrom, List.filterMap_cons, List.filterMap_nil, hm]
        norm_num [jsGtZero, sortCmp, insertCmp]
      rw [hs]
      exact List.mem_singleton.mpr rfl)
